import Mathlib

/-!
Verification of the terminal-multiplexer server (`server.js`).

The development shallowly embeds the server's core data structures and
socket handlers:

* `RingBuffer` — the fixed-capacity circular scrollback store
  (`class RingBuffer`, lines 22–63), with bytes modelled as `Nat` and the
  backing `Buffer` as a total function `Nat → Nat`.
* `Bucket` — the token-bucket rate limiter (`createBucket`, lines 155–168),
  with the JS float arithmetic modelled over `ℚ` and `Date.now()`
  timestamps over `ℤ` (milliseconds).
* `parseSessionName` / `getNextSessionNumber` — the gap-filling display
  name allocator (`getNextSessionNumber`, lines 68–86); the regex
  `^Session (\d+)$` is modelled by an explicit character-level parse and
  `Array.sort((a,b) => a-b)` by an ascending sort.
* `SrvState` / `step` — the socket.io connection handlers
  (lines 170–231) as a deterministic step function over an explicit server
  state; pseudo-terminal side effects (`write`/`resize`/`kill`) appear as
  an `Eff` output list and messages to clients as a `(Tgt × Msg)` list.

Not modelled, as no property refers to them: static asset serving, the
`disconnect`/shutdown/signal handlers (logging and teardown only), and the
initial session's delayed startup-command write (`isInitial`, lines
132–143, a single deferred best-effort `pty.write`).
-/

/-! ## Scrollback ring buffer (server.js lines 22–63) -/

/-- The `RingBuffer` object state: backing byte array `buf` (modelled as a
total function, as `Buffer.allocUnsafe` contents are arbitrary but the code
only ever reads written regions), capacity `limit`, logical `start` offset
and logical length `len`. -/
structure RingBuffer where
  buf : Nat → Nat
  limit : Nat
  start : Nat
  len : Nat

/-- `new RingBuffer(limitBytes)`: fresh buffer (uninitialised contents
modelled as zeros; they are never observable). -/
def RingBuffer.mk0 (limitBytes : Nat) : RingBuffer :=
  ⟨fun _ => 0, limitBytes, 0, 0⟩

/-- `src.copy(dst, pos)`: overwrite positions `pos, pos+1, …` of `f` with
the elements of `src`. -/
def writeList (f : Nat → Nat) (pos : Nat) (src : List Nat) : Nat → Nat :=
  fun i => if pos ≤ i ∧ i - pos < src.length then src.getD (i - pos) 0 else f i

/-- The two-part circular write of `append`'s tail (lines 44–49): write
`b` starting at `W`, splitting at the end of the backing array: first
`min b.length (C - W)` bytes at `W`, the rest (if any) at position 0. -/
def ringWrite (f : Nat → Nat) (C W : Nat) (b : List Nat) : Nat → Nat :=
  let firstPart := min b.length (C - W)
  let f1 := writeList f W (b.take firstPart)
  if firstPart < b.length then writeList f1 0 (b.drop firstPart) else f1

/-- `RingBuffer.prototype.append(b)` (lines 29–50), for a byte chunk `b`. -/
def RingBuffer.append (rb : RingBuffer) (b : List Nat) : RingBuffer :=
  if rb.limit ≤ b.length then
    { rb with buf := writeList rb.buf 0 (b.drop (b.length - rb.limit)),
              start := 0, len := rb.limit }
  else
    let free := rb.limit - rb.len
    let start' := if free < b.length then (rb.start + (b.length - free)) % rb.limit else rb.start
    let len' := if free < b.length then rb.limit else rb.len + b.length
    let writePos := (start' + len' - b.length) % rb.limit
    { rb with buf := ringWrite rb.buf rb.limit writePos b,
              start := start', len := len' }

/-- Read `n` consecutive positions of `f` starting at `pos`
(a `Buffer.slice`). -/
def bufSlice (f : Nat → Nat) (pos n : Nat) : List Nat :=
  (List.range n).map (fun i => f (pos + i))

/-- `RingBuffer.prototype.toString()` (lines 51–62), at the byte level:
the logical content, read in one or two contiguous slices. -/
def RingBuffer.toSnapshot (rb : RingBuffer) : List Nat :=
  if rb.len = 0 then []
  else if rb.start + rb.len ≤ rb.limit then
    bufSlice rb.buf rb.start rb.len
  else
    bufSlice rb.buf rb.start (rb.limit - rb.start)
      ++ bufSlice rb.buf 0 (rb.start + rb.len - rb.limit)

example : ((RingBuffer.mk0 3).append [1,2]).toSnapshot = [1,2] := by decide
example : (((RingBuffer.mk0 3).append [1,2]).append [3,4,5,6,7]).toSnapshot = [5,6,7] := by decide
example : (((RingBuffer.mk0 3).append [1,2]).append [3,4]).toSnapshot = [2,3,4] := by decide
example : (((RingBuffer.mk0 4).append [1,2,3]).append [4,5]).toSnapshot = [2,3,4,5] := by decide

/-! ### Ring-buffer correctness: helper lemmas -/

theorem getD_take' : ∀ (l : List Nat) (n i : Nat), i < n →
    (l.take n).getD i 0 = l.getD i 0
  | [], _, _, _ => by simp
  | _ :: _, n + 1, 0, _ => rfl
  | _ :: l, n + 1, i + 1, h => by
    simp only [List.take_succ_cons, List.getD_cons_succ]
    exact getD_take' l n i (by omega)

theorem getD_drop' : ∀ (l : List Nat) (n i : Nat),
    (l.drop n).getD i 0 = l.getD (n + i) 0
  | _, 0, _ => by simp
  | [], _ + 1, _ => by simp
  | _ :: l, n + 1, i => by
    simp only [List.drop_succ_cons]
    rw [getD_drop' l n i]
    have : n + 1 + i = (n + i) + 1 := by omega
    rw [this, List.getD_cons_succ]

theorem writeList_in (f : Nat → Nat) (pos : Nat) (src : List Nat) (i : Nat)
    (h1 : pos ≤ i) (h2 : i - pos < src.length) :
    writeList f pos src i = src.getD (i - pos) 0 := by
  simp [writeList, h1, h2]

theorem writeList_out (f : Nat → Nat) (pos : Nat) (src : List Nat) (i : Nat)
    (h : ¬(pos ≤ i ∧ i - pos < src.length)) :
    writeList f pos src i = f i := by
  simp only [writeList, if_neg h]

/-- Reading back a just-written byte: position `(W + j) % C` of the
circular write holds byte `j` of the chunk. -/
theorem ringWrite_hit (f : Nat → Nat) (C W : Nat) (b : List Nat) (hW : W < C)
    (hb : b.length ≤ C) (j : Nat) (hj : j < b.length) :
    ringWrite f C W b ((W + j) % C) = b.getD j 0 := by
  have hfp1 : min b.length (C - W) ≤ b.length := Nat.min_le_left ..
  have hfp2 : min b.length (C - W) ≤ C - W := Nat.min_le_right ..
  unfold ringWrite
  by_cases hcase : j < min b.length (C - W)
  · have hlt : W + j < C := by omega
    have hmod : (W + j) % C = W + j := Nat.mod_eq_of_lt hlt
    rw [hmod]
    have hinner : writeList f W (b.take (min b.length (C - W))) (W + j)
        = b.getD j 0 := by
      rw [writeList_in f W _ (W + j) (by omega)
          (by rw [List.length_take]; omega)]
      have : W + j - W = j := by omega
      rw [this, getD_take' b _ j hcase]
    by_cases hsplit : min b.length (C - W) < b.length
    · have hfpval : min b.length (C - W) = C - W := by omega
      rw [if_pos hsplit, writeList_out, hinner]
      rw [List.length_drop]
      omega
    · rw [if_neg hsplit, hinner]
  · have hfpval : min b.length (C - W) = C - W := by omega
    have hsplit : min b.length (C - W) < b.length := by omega
    have hge : C ≤ W + j := by omega
    have hlt2 : W + j - C < C := by omega
    have hmod : (W + j) % C = W + j - C := by
      rw [Nat.mod_eq_sub_mod hge, Nat.mod_eq_of_lt hlt2]
    rw [hmod, if_pos hsplit]
    rw [writeList_in _ 0 _ _ (by omega) (by rw [List.length_drop]; omega)]
    have h1 : W + j - C - 0 = W + j - C := by omega
    rw [h1, getD_drop']
    congr 1
    omega

/-- Positions of the circular write not covered by the chunk are untouched:
for `b.length ≤ j < C`, position `(W + j) % C` keeps its old byte. -/
theorem ringWrite_miss (f : Nat → Nat) (C W : Nat) (b : List Nat) (hW : W < C)
    (hb : b.length ≤ C) (j : Nat) (hj1 : b.length ≤ j) (hj2 : j < C) :
    ringWrite f C W b ((W + j) % C) = f ((W + j) % C) := by
  have hfp1 : min b.length (C - W) ≤ b.length := Nat.min_le_left ..
  have hfp2 : min b.length (C - W) ≤ C - W := Nat.min_le_right ..
  unfold ringWrite
  by_cases hlt : W + j < C
  · have hmod : (W + j) % C = W + j := Nat.mod_eq_of_lt hlt
    rw [hmod]
    have hinner : writeList f W (b.take (min b.length (C - W))) (W + j) = f (W + j) := by
      rw [writeList_out]
      rw [List.length_take]
      omega
    by_cases hsplit : min b.length (C - W) < b.length
    · rw [if_pos hsplit, writeList_out, hinner]
      rw [List.length_drop]
      omega
    · rw [if_neg hsplit, hinner]
  · have hge : C ≤ W + j := by omega
    have hlt2 : W + j - C < C := by omega
    have hmod : (W + j) % C = W + j - C := by
      rw [Nat.mod_eq_sub_mod hge, Nat.mod_eq_of_lt hlt2]
    rw [hmod]
    have hinner : writeList f W (b.take (min b.length (C - W))) (W + j - C)
        = f (W + j - C) := by
      rw [writeList_out]
      rw [List.length_take]
      omega
    by_cases hsplit : min b.length (C - W) < b.length
    · have hfpval : min b.length (C - W) = C - W := by omega
      rw [if_pos hsplit, writeList_out, hinner]
      rw [List.length_drop]
      omega
    · rw [if_neg hsplit, hinner]

/-- The ring-buffer representation invariant: after the byte stream `L` has
been appended to a fresh buffer of capacity `C`, the state holds the last
`min C L.length` bytes of `L`, readable circularly from `start`. -/
def RingInv (C : Nat) (L : List Nat) (rb : RingBuffer) : Prop :=
  rb.limit = C ∧ rb.start < C ∧ rb.len = min C L.length ∧
    ∀ i, i < rb.len → rb.buf ((rb.start + i) % C) = L.getD (L.length - rb.len + i) 0

theorem ringInv_init (C : Nat) (hC : 0 < C) : RingInv C [] (RingBuffer.mk0 C) := by
  refine ⟨rfl, hC, by simp [RingBuffer.mk0], ?_⟩
  intro i hi
  simp [RingBuffer.mk0] at hi

theorem ringInv_append (C : Nat) (hC : 0 < C) (L b : List Nat) (rb : RingBuffer)
    (h : RingInv C L rb) : RingInv C (L ++ b) (rb.append b) := by
  obtain ⟨f, lim, s, n⟩ := rb
  obtain ⟨hLim, hStart, hLen, hBuf⟩ := h
  dsimp only at hLim hStart hLen hBuf
  have hLim' : C = lim := hLim.symm
  subst hLim'
  have hnC : n ≤ C := by omega
  have hnL : n ≤ L.length := by omega
  by_cases hbig : C ≤ b.length
  · have happ : RingBuffer.append ⟨f, C, s, n⟩ b =
        ⟨writeList f 0 (b.drop (b.length - C)), C, 0, C⟩ := by
      simp only [RingBuffer.append, if_pos hbig]
    rw [happ]
    refine ⟨rfl, hC, ?_, ?_⟩
    · show C = min C (L ++ b).length
      rw [List.length_append]
      omega
    · intro i hi
      replace hi : i < C := hi
      show writeList f 0 (b.drop (b.length - C)) ((0 + i) % C)
          = (L ++ b).getD ((L ++ b).length - C + i) 0
      have hmod : (0 + i) % C = i := by
        rw [Nat.zero_add]; exact Nat.mod_eq_of_lt hi
      rw [hmod, writeList_in _ _ _ _ (by omega) (by rw [List.length_drop]; omega)]
      have h0 : i - 0 = i := by omega
      rw [h0, getD_drop', List.length_append,
          List.getD_append_right _ _ _ _ (by omega)]
      congr 1
      omega
  · have hblt : b.length < C := by omega
    by_cases hov : C - n < b.length
    · -- overflow: oldest bytes are discarded, the buffer becomes full
      have happ : RingBuffer.append ⟨f, C, s, n⟩ b =
          ⟨ringWrite f C (((s + (b.length - (C - n))) % C + C - b.length) % C) b,
            C, (s + (b.length - (C - n))) % C, C⟩ := by
        simp only [RingBuffer.append, if_neg hbig, if_pos hov]
      rw [happ]
      have hW : (((s + (b.length - (C - n))) % C + C - b.length) % C) = (s + n) % C := by
        have h1 : (s + (b.length - (C - n))) % C + C - b.length
            = (s + (b.length - (C - n))) % C + (C - b.length) := by omega
        rw [h1, Nat.mod_add_mod]
        have h2 : s + (b.length - (C - n)) + (C - b.length) = s + n := by omega
        rw [h2]
      refine ⟨rfl, Nat.mod_lt _ hC, ?_, ?_⟩
      · show C = min C (L ++ b).length
        rw [List.length_append]
        omega
      · intro i hi
        replace hi : i < C := hi
        show ringWrite f C (((s + (b.length - (C - n))) % C + C - b.length) % C) b
            (((s + (b.length - (C - n))) % C + i) % C)
            = (L ++ b).getD ((L ++ b).length - C + i) 0
        rw [hW]
        by_cases hio : i < C - b.length
        · -- a surviving old byte, shifted forward by the overflow amount
          have hpos : ((s + (b.length - (C - n))) % C + i) % C
              = ((s + n) % C + (b.length + i)) % C := by
            rw [Nat.mod_add_mod, Nat.mod_add_mod]
            have h3 : s + n + (b.length + i) = (s + (b.length - (C - n)) + i) + C := by
              omega
            rw [h3, Nat.add_mod_right]
          rw [hpos, ringWrite_miss f C ((s + n) % C) b (Nat.mod_lt _ hC)
              (le_of_lt hblt) (b.length + i) (by omega) (by omega)]
          have hpos2 : ((s + n) % C + (b.length + i)) % C
              = (s + ((b.length - (C - n)) + i)) % C := by
            rw [Nat.mod_add_mod]
            have h4 : s + n + (b.length + i) = (s + ((b.length - (C - n)) + i)) + C := by
              omega
            rw [h4, Nat.add_mod_right]
          rw [hpos2, hBuf ((b.length - (C - n)) + i) (by omega)]
          rw [List.length_append, List.getD_append _ _ _ _ (by omega)]
          congr 1
          omega
        · -- a byte of the new chunk
          have hpos : ((s + (b.length - (C - n))) % C + i) % C
              = ((s + n) % C + (i - (C - b.length))) % C := by
            rw [Nat.mod_add_mod, Nat.mod_add_mod]
            congr 1
            omega
          rw [hpos, ringWrite_hit f C ((s + n) % C) b (Nat.mod_lt _ hC)
              (le_of_lt hblt) (i - (C - b.length)) (by omega)]
          rw [List.length_append, List.getD_append_right _ _ _ _ (by omega)]
          congr 1
          omega
    · -- no overflow: the chunk fits into the free space
      have hnb : n + b.length ≤ C := by omega
      have happ : RingBuffer.append ⟨f, C, s, n⟩ b =
          ⟨ringWrite f C ((s + (n + b.length) - b.length) % C) b,
            C, s, n + b.length⟩ := by
        simp only [RingBuffer.append, if_neg hbig, if_neg hov]
      rw [happ]
      have hW : (s + (n + b.length) - b.length) % C = (s + n) % C := by
        congr 1
        omega
      refine ⟨rfl, hStart, ?_, ?_⟩
      · show n + b.length = min C (L ++ b).length
        rw [List.length_append]
        omega
      · intro i hi
        replace hi : i < n + b.length := hi
        show ringWrite f C ((s + (n + b.length) - b.length) % C) b ((s + i) % C)
            = (L ++ b).getD ((L ++ b).length - (n + b.length) + i) 0
        rw [hW]
        by_cases hio : i < n
        · -- an old byte, untouched at its old position
          have hpos : (s + i) % C = ((s + n) % C + (C - n + i)) % C := by
            rw [Nat.mod_add_mod]
            have h3 : s + n + (C - n + i) = (s + i) + C := by omega
            rw [h3, Nat.add_mod_right]
          rw [hpos, ringWrite_miss f C ((s + n) % C) b (Nat.mod_lt _ hC)
              (le_of_lt hblt) (C - n + i) (by omega) (by omega)]
          rw [← hpos, hBuf i hio]
          rw [List.length_append, List.getD_append _ _ _ _ (by omega)]
          congr 1
          omega
        · -- a byte of the new chunk, written after the old logical end
          have hpos : (s + i) % C = ((s + n) % C + (i - n)) % C := by
            rw [Nat.mod_add_mod]
            congr 1
            omega
          rw [hpos, ringWrite_hit f C ((s + n) % C) b (Nat.mod_lt _ hC)
              (le_of_lt hblt) (i - n) (by omega)]
          rw [List.length_append, List.getD_append_right _ _ _ _ (by omega)]
          congr 1
          omega

/-- The two-slice `toString` read equals a single circular read of `len`
consecutive positions starting at `start`. -/
theorem toSnapshot_eq_circular (rb : RingBuffer) (hC : 0 < rb.limit)
    (hs : rb.start < rb.limit) (hl : rb.len ≤ rb.limit) :
    rb.toSnapshot = (List.range rb.len).map (fun i => rb.buf ((rb.start + i) % rb.limit)) := by
  obtain ⟨f, C, s, n⟩ := rb
  dsimp only at hC hs hl ⊢
  unfold RingBuffer.toSnapshot
  dsimp only
  by_cases h0 : n = 0
  · subst h0
    simp
  rw [if_neg h0]
  by_cases hin : s + n ≤ C
  · rw [if_pos hin]
    unfold bufSlice
    apply List.map_congr_left
    intro i hi
    rw [List.mem_range] at hi
    rw [Nat.mod_eq_of_lt (by omega)]
  · rw [if_neg hin]
    apply List.ext_getElem
    · simp [bufSlice]
      omega
    · intro i h1 h2
      simp only [bufSlice, List.length_append, List.length_map, List.length_range] at h1
      simp only [List.length_map, List.length_range] at h2
      rw [List.getElem_map, List.getElem_range]
      by_cases hcase : i < C - s
      · rw [List.getElem_append_left (by simp [bufSlice]; omega)]
        simp only [bufSlice, List.getElem_map, List.getElem_range]
        rw [Nat.mod_eq_of_lt (by omega)]
      · rw [List.getElem_append_right (by simp [bufSlice]; omega)]
        simp only [bufSlice, List.getElem_map, List.getElem_range, List.length_map,
          List.length_range]
        have h3 : s + i = (s + i - C) + C := by omega
        rw [h3, Nat.add_mod_right, Nat.mod_eq_of_lt (by omega)]
        congr 1
        omega

theorem drop_eq_range_map (L : List Nat) (k : Nat) :
    L.drop k = (List.range (L.length - k)).map (fun i => L.getD (k + i) 0) := by
  apply List.ext_getElem
  · simp
  · intro i h1 h2
    simp only [List.length_drop] at h1
    rw [List.getElem_drop, List.getElem_map, List.getElem_range]
    rw [List.getD_eq_getElem _ _ (by omega)]

theorem ringInv_foldl (C : Nat) (hC : 0 < C) (cs : List (List Nat))
    (rb : RingBuffer) (L : List Nat) (h : RingInv C L rb) :
    RingInv C (L ++ cs.flatten) (List.foldl RingBuffer.append rb cs) := by
  induction cs generalizing rb L with
  | nil => simpa using h
  | cons b cs ih =>
    rw [List.foldl_cons, List.flatten_cons, ← List.append_assoc]
    exact ih (rb.append b) (L ++ b) (ringInv_append C hC L b rb h)

theorem ringInv_toSnapshot (C : Nat) (hC : 0 < C) (L : List Nat) (rb : RingBuffer)
    (h : RingInv C L rb) : rb.toSnapshot = L.drop (L.length - C) := by
  obtain ⟨hLim, hStart, hLen, hBuf⟩ := h
  rw [toSnapshot_eq_circular rb (by omega) (by omega) (by omega), hLim]
  have hk : rb.len = L.length - (L.length - rb.len) := by omega
  rw [drop_eq_range_map L (L.length - C)]
  have hlen : L.length - (L.length - C) = rb.len := by omega
  rw [hlen]
  apply List.map_congr_left
  intro i hi
  rw [List.mem_range] at hi
  rw [hBuf i hi]
  congr 1
  omega

/-- C1. For every capacity `C > 0` and every sequence of byte chunks
appended to a fresh scrollback `RingBuffer` of capacity `C`, the snapshot
(`toString`) afterwards is exactly the last `min(C, total bytes appended)`
bytes of the concatenated stream, in order — for any chunking of the same
underlying stream (the right-hand side depends only on the concatenation).
In particular a single chunk of length `≥ C` leaves exactly its trailing
`C` bytes. (`L.drop (L.length - C)` is precisely the last
`min(C, L.length)` bytes of `L`.) -/
theorem ringBuffer_snapshot_spec (C : Nat) (hC : 0 < C) (cs : List (List Nat)) :
    (List.foldl RingBuffer.append (RingBuffer.mk0 C) cs).toSnapshot
      = cs.flatten.drop (cs.flatten.length - C)
  ∧ ∀ b : List Nat, C ≤ b.length →
      ((RingBuffer.mk0 C).append b).toSnapshot = b.drop (b.length - C) := by
  constructor
  · have h := ringInv_foldl C hC cs (RingBuffer.mk0 C) [] (ringInv_init C hC)
    rw [List.nil_append] at h
    exact ringInv_toSnapshot C hC cs.flatten _ h
  · intro b _
    have h := ringInv_append C hC [] b (RingBuffer.mk0 C) (ringInv_init C hC)
    rw [List.nil_append] at h
    exact ringInv_toSnapshot C hC b _ h

/-- C1 witness: capacity 3, chunks `[1,2]`, `[3,4,5]`; the snapshot is the
last 3 bytes `[3,4,5]` of the 5-byte stream, and a single 4-byte chunk into
a capacity-3 buffer leaves its trailing 3 bytes. -/
theorem ringBuffer_snapshot_spec_witness :
    (List.foldl RingBuffer.append (RingBuffer.mk0 3) [[1,2],[3,4,5]]).toSnapshot = [3,4,5]
  ∧ ((RingBuffer.mk0 3).append [9,8,7,6]).toSnapshot = [8,7,6] := by
  have h := ringBuffer_snapshot_spec 3 (by decide) [[1,2],[3,4,5]]
  exact ⟨h.1.trans (by decide), (h.2 [9,8,7,6] (by decide)).trans (by decide)⟩

/-! ## Token-bucket rate limiter (server.js lines 155–168)

`createBucket(capacity = 32768, refillRate = 16384)` closes over mutable
`tokens` (a JS number, modelled over `ℚ`) and `last` (a `Date.now()`
millisecond timestamp, modelled over `ℤ`). -/

/-- The closure state of one `createBucket` instance. -/
structure Bucket where
  capacity : ℚ
  refillRate : ℚ
  tokens : ℚ
  last : ℤ
deriving DecidableEq

/-- `createBucket(capacity, refillRate)` at creation time `now`:
`tokens = capacity; last = Date.now()`. -/
def createBucket (capacity refillRate : ℚ) (now : ℤ) : Bucket :=
  ⟨capacity, refillRate, capacity, now⟩

/-- The refill step at the top of `take` (lines 159–163): if wall-clock
time advanced, add `elapsed_seconds × refillRate` tokens, capped at
`capacity`, and update `last`. -/
def Bucket.refillAt (bk : Bucket) (now : ℤ) : Bucket :=
  if 0 < now - bk.last then
    { bk with tokens := min bk.capacity (bk.tokens + (((now - bk.last : ℤ) : ℚ) / 1000) * bk.refillRate),
              last := now }
  else bk

/-- `take(n)` (lines 158–166) called at wall-clock time `now`: refill,
then test-and-deduct. Returns the admission decision and the new state. -/
def Bucket.take (bk : Bucket) (n : ℚ) (now : ℤ) : Bool × Bucket :=
  let bk1 := bk.refillAt now
  if n ≤ bk1.tokens then (true, { bk1 with tokens := bk1.tokens - n })
  else (false, bk1)

/-- A sequence of `take` calls, each an (amount, timestamp) pair. -/
def runBucket (bk : Bucket) (calls : List (ℚ × ℤ)) : Bucket :=
  List.foldl (fun b p => (b.take p.1 p.2).2) bk calls

theorem bucket_take_capacity (bk : Bucket) (n : ℚ) (now : ℤ)
    (h1 : bk.tokens ≤ bk.capacity) (h2 : 0 ≤ n) :
    (bk.take n now).2.tokens ≤ bk.capacity ∧ (bk.take n now).2.capacity = bk.capacity := by
  have hre : (bk.refillAt now).tokens ≤ bk.capacity ∧ (bk.refillAt now).capacity = bk.capacity := by
    unfold Bucket.refillAt
    split
    · exact ⟨min_le_left _ _, rfl⟩
    · exact ⟨h1, rfl⟩
  simp only [Bucket.take]
  split
  · refine ⟨?_, hre.2⟩
    have := hre.1
    dsimp only
    linarith
  · exact hre

/-- C4. The `take(n)` admission test: after the refill step (elapsed
seconds times `refillRate`, capped at `capacity`, applied only when time
advanced), the call returns `true` and deducts exactly `n` when `n` tokens
are available, else returns `false` and deducts nothing; and starting from
`tokens = capacity`, after any sequence of calls with nonnegative amounts
the token count never exceeds `capacity`. -/
theorem bucket_admit_spec :
    (∀ (bk : Bucket) (n : ℚ) (now : ℤ),
        (n ≤ (bk.refillAt now).tokens →
          bk.take n now = (true, { bk.refillAt now with tokens := (bk.refillAt now).tokens - n }))
      ∧ ((bk.refillAt now).tokens < n → bk.take n now = (false, bk.refillAt now)))
  ∧ ∀ (cap rr : ℚ) (t0 : ℤ) (calls : List (ℚ × ℤ)),
      (∀ p ∈ calls, 0 ≤ p.1) →
      (runBucket (createBucket cap rr t0) calls).tokens ≤ cap := by
  constructor
  · intro bk n now
    constructor
    · intro h
      simp only [Bucket.take, if_pos h]
    · intro h
      simp only [Bucket.take, if_neg (not_le.mpr h)]
  · intro cap rr t0 calls h
    have gen : ∀ (calls : List (ℚ × ℤ)) (bk : Bucket),
        bk.capacity = cap → bk.tokens ≤ cap → (∀ p ∈ calls, 0 ≤ p.1) →
        (runBucket bk calls).tokens ≤ cap := by
      intro calls
      induction calls with
      | nil => intro bk hc ht _; exact ht
      | cons p ps ih =>
        intro bk hc ht hpos
        have hstep := bucket_take_capacity bk p.1 p.2 (by rw [hc]; exact ht)
          (hpos p (List.mem_cons_self ..))
        show (runBucket (bk.take p.1 p.2).2 ps).tokens ≤ cap
        exact ih (bk.take p.1 p.2).2 (by rw [hstep.2, hc]) (by rw [← hc]; exact hstep.1)
          (fun q hq => hpos q (List.mem_cons_of_mem _ hq))
    exact gen calls (createBucket cap rr t0) rfl (le_refl _) h

/-- C4 witness: a bucket of capacity 10 admits 4 (deducting to 6), and a
concrete call sequence with nonnegative amounts never pushes tokens above
capacity. -/
theorem bucket_admit_spec_witness :
    (createBucket 10 1 0).take 4 0 = (true, ⟨10, 1, 6, 0⟩)
  ∧ (runBucket (createBucket 10 1 0) [(4, 0), (20, 500)]).tokens ≤ 10 := by
  constructor
  · have h := (bucket_admit_spec.1 (createBucket 10 1 0) 4 0).1
      (by norm_num [Bucket.refillAt, createBucket])
    rw [h]
    norm_num [Bucket.refillAt, createBucket, Prod.ext_iff, Bucket.mk.injEq]
  · exact bucket_admit_spec.2 10 1 0 [(4, 0), (20, 500)] (by norm_num)

/-! ## Gap-filling session name allocation (server.js lines 68–86, 105–108) -/

/-- `parseInt` on a digit string (the capture group of `^Session (\d+)$`),
accumulator style. -/
def digitsToNat : List Char → Nat → Nat
  | [], acc => acc
  | c :: cs, acc => digitsToNat cs (acc * 10 + (c.toNat - 48))

/-- The characters of the fixed name stem `"Session "`. -/
def sessionStem : List Char := ['S', 'e', 's', 's', 'i', 'o', 'n', ' ']

/-- The regex match `name.match(/^Session (\d+)$/)` followed by
`parseInt(match[1], 10)` (lines 71–72): the name must be the stem followed
by one or more digits and nothing else. -/
def parseSessionName (s : String) : Option Nat :=
  let cs := s.data
  if cs.take 8 = sessionStem then
    let rest := cs.drop 8
    if rest ≠ [] ∧ rest.all (fun c => c.isDigit) then some (digitsToNat rest 0)
    else none
  else none

/-- `.sort((a, b) => a - b)` — ascending numeric sort (line 75). -/
def sortNats (l : List Nat) : List Nat := List.insertionSort (· ≤ ·) l

/-- The scan loop of lines 77–84: walk the ascending list, incrementing
`nextNumber` on every exact match and stopping at the first gap. -/
def scanNext : List Nat → Nat → Nat
  | [], acc => acc
  | x :: xs, acc => if x = acc then scanNext xs (acc + 1) else acc

/-- `getNextSessionNumber()` (lines 68–86) over the list of live session
names: parse, drop non-matching names, sort ascending, scan from 1. -/
def getNextSessionNumber (names : List String) : Nat :=
  scanNext (sortNats (names.filterMap parseSessionName)) 1

/-- The display name `` `Session ${sessionNumber}` `` the next created
session receives (line 108). -/
def nextSessionName (names : List String) : String :=
  "Session " ++ Nat.repr (getNextSessionNumber names)

example : getNextSessionNumber ["Session 1", "Session 2", "Session 3"] = 4 := by decide
example : getNextSessionNumber ["Session 1", "Session 3"] = 2 := by decide
example : getNextSessionNumber [] = 1 := by decide
example : getNextSessionNumber ["Session 2", "weird"] = 1 := by decide

/-- On a sorted, duplicate-free list whose elements are all `≥ a`,
the scan loop returns the least `m ≥ a` absent from the list. -/
theorem scanNext_least (l : List Nat) (a : Nat)
    (hs : l.Sorted (· ≤ ·)) (hd : l.Nodup) (hlb : ∀ x ∈ l, a ≤ x) :
    a ≤ scanNext l a ∧ scanNext l a ∉ l
      ∧ ∀ m, a ≤ m → m ∉ l → scanNext l a ≤ m := by
  induction l generalizing a with
  | nil => exact ⟨le_refl a, List.not_mem_nil a, fun m hm _ => hm⟩
  | cons x xs ih =>
    rw [List.sorted_cons] at hs
    rw [List.nodup_cons] at hd
    by_cases hx : x = a
    · subst hx
      rw [scanNext, if_pos rfl]
      have hlb' : ∀ y ∈ xs, x + 1 ≤ y := by
        intro y hy
        have h1 := hs.1 y hy
        have h2 : y ≠ x := fun he => hd.1 (he ▸ hy)
        omega
      obtain ⟨h1, h2, h3⟩ := ih (x + 1) hs.2 hd.2 hlb'
      refine ⟨by omega, ?_, ?_⟩
      · rw [List.mem_cons]
        push_neg
        exact ⟨by omega, h2⟩
      · intro m hm hmem
        rw [List.mem_cons] at hmem
        push_neg at hmem
        exact h3 m (by omega) hmem.2
    · rw [scanNext, if_neg hx]
      refine ⟨le_refl a, ?_, fun m hm _ => hm⟩
      rw [List.mem_cons]
      push_neg
      refine ⟨fun he => hx he.symm, fun hmem => ?_⟩
      have h1 := hlb x (List.mem_cons_self ..)
      have h2 := hlb a (List.mem_cons_of_mem _ hmem)
      have h3 := hs.1 a hmem
      omega

/-- Over any list of names whose parsed numeric suffixes are positive and
pairwise distinct, `getNextSessionNumber` is the least positive integer
not used as a suffix. -/
theorem nextSessionNumber_least (names : List String)
    (hpos : ∀ n ∈ names.filterMap parseSessionName, 1 ≤ n)
    (hnodup : (names.filterMap parseSessionName).Nodup) :
    1 ≤ getNextSessionNumber names
      ∧ getNextSessionNumber names ∉ names.filterMap parseSessionName
      ∧ ∀ m, 1 ≤ m → m ∉ names.filterMap parseSessionName →
          getNextSessionNumber names ≤ m := by
  have hperm : List.Perm (sortNats (names.filterMap parseSessionName))
      (names.filterMap parseSessionName) :=
    List.perm_insertionSort _ _
  have hs : (sortNats (names.filterMap parseSessionName)).Sorted (· ≤ ·) :=
    List.sorted_insertionSort _ _
  have hd : (sortNats (names.filterMap parseSessionName)).Nodup := hperm.nodup_iff.mpr hnodup
  have hlb : ∀ x ∈ sortNats (names.filterMap parseSessionName), 1 ≤ x :=
    fun x hx => hpos x (hperm.mem_iff.mp hx)
  obtain ⟨h1, h2, h3⟩ := scanNext_least _ 1 hs hd hlb
  exact ⟨h1, fun hmem => h2 (hperm.mem_iff.mpr hmem),
    fun m hm hmem => h3 m hm (fun hx => hmem (hperm.mem_iff.mp hx))⟩

/-! To speak of every reachable registry state we prove that the name
allocation round-trips through the name parser: the decimal rendering of
`Nat.repr` (core `toDigitsCore`) is nonempty, all digits, and parses back
to the same number. -/

/-- The decimal digit characters of `n`, most significant first
(the spine of `Nat.toDigitsCore 10`). -/
def decChars (n : Nat) : List Char :=
  if n < 10 then [Nat.digitChar n]
  else decChars (n / 10) ++ [Nat.digitChar (n % 10)]
decreasing_by exact Nat.div_lt_self (by omega) (by omega)

theorem digitChar_digit_facts :
    ∀ d, d < 10 → (Nat.digitChar d).isDigit = true ∧ (Nat.digitChar d).toNat - 48 = d := by
  decide

theorem decChars_ne_nil (n : Nat) : decChars n ≠ [] := by
  rw [decChars]
  split <;> simp

theorem decChars_digits (n : Nat) : ∀ c ∈ decChars n, c.isDigit = true := by
  induction n using Nat.strong_induction_on with
  | _ n ih =>
    rw [decChars]
    split
    · intro c hc
      rw [List.mem_singleton] at hc
      subst hc
      exact (digitChar_digit_facts n (by omega)).1
    · intro c hc
      rw [List.mem_append, List.mem_singleton] at hc
      rcases hc with hc | hc
      · exact ih (n / 10) (Nat.div_lt_self (by omega) (by omega)) c hc
      · subst hc
        exact (digitChar_digit_facts (n % 10) (by omega)).1

theorem digitsToNat_append (l1 l2 : List Char) (acc : Nat) :
    digitsToNat (l1 ++ l2) acc = digitsToNat l2 (digitsToNat l1 acc) := by
  induction l1 generalizing acc with
  | nil => rfl
  | cons c cs ih => exact ih ..

theorem digitsToNat_decChars (n : Nat) : digitsToNat (decChars n) 0 = n := by
  induction n using Nat.strong_induction_on with
  | _ n ih =>
    rw [decChars]
    split
    · show digitsToNat [] (0 * 10 + ((Nat.digitChar n).toNat - 48)) = n
      rw [digitsToNat]
      rw [(digitChar_digit_facts n (by omega)).2]
      omega
    · rw [digitsToNat_append, ih (n / 10) (Nat.div_lt_self (by omega) (by omega))]
      show digitsToNat [] (n / 10 * 10 + ((Nat.digitChar (n % 10)).toNat - 48)) = n
      rw [digitsToNat]
      rw [(digitChar_digit_facts (n % 10) (by omega)).2]
      omega

theorem toDigitsCore_eq_decChars :
    ∀ (fuel n : Nat) (ds : List Char), n < fuel →
      Nat.toDigitsCore 10 fuel n ds = decChars n ++ ds := by
  intro fuel
  induction fuel with
  | zero => intro n ds h; omega
  | succ fuel ih =>
    intro n ds h
    show (if n / 10 = 0 then Nat.digitChar (n % 10) :: ds
          else Nat.toDigitsCore 10 fuel (n / 10) (Nat.digitChar (n % 10) :: ds))
        = decChars n ++ ds
    by_cases h0 : n / 10 = 0
    · rw [if_pos h0, decChars, if_pos (by omega : n < 10)]
      have : n % 10 = n := by omega
      rw [this]
      rfl
    · rw [if_neg h0]
      rw [show decChars n = decChars (n / 10) ++ [Nat.digitChar (n % 10)] from by
        rw [decChars, if_neg (by omega : ¬ n < 10)]]
      have hlt : n / 10 < fuel := by
        have hdlt : n / 10 < n := Nat.div_lt_self (by omega) (by omega)
        omega
      rw [ih (n / 10) _ hlt, List.append_assoc]
      rfl

theorem repr_data (n : Nat) : (Nat.repr n).data = decChars n := by
  show (Nat.toDigits 10 n).asString.data = decChars n
  rw [Nat.toDigits, toDigitsCore_eq_decChars (n + 1) n [] (by omega), List.append_nil]
  rfl

/-- The name written by `createSession` parses back to its number: the
regex `^Session (\d+)$` accepts `` `Session ${m}` `` with capture `m`. -/
theorem parseSessionName_repr (m : Nat) :
    parseSessionName ("Session " ++ Nat.repr m) = some m := by
  have hdata : ("Session " ++ Nat.repr m).data = sessionStem ++ decChars m := by
    rw [String.data_append, repr_data]
    rfl
  simp only [parseSessionName, hdata]
  have hlen : (8 : Nat) = sessionStem.length := rfl
  rw [hlen, List.take_left, List.drop_left]
  rw [if_pos rfl,
    if_pos ⟨decChars_ne_nil m, List.all_eq_true.mpr (fun c hc => decChars_digits m c hc)⟩,
    digitsToNat_decChars]

/-- The registry's multiset of live display names, as produced by any
interleaving of completed creates (which append the gap-filled
`nextSessionName`) and completed closes (which remove the exited
session's name). -/
inductive NamesReachable : List String → Prop where
  | nil : NamesReachable []
  | create (names : List String) : NamesReachable names →
      NamesReachable (names ++ [nextSessionName names])
  | close (l1 l2 : List String) (x : String) : NamesReachable (l1 ++ x :: l2) →
      NamesReachable (l1 ++ l2)

/-- Every reachable registry state has positive, pairwise-distinct
numeric suffixes. -/
theorem namesReachable_inv (names : List String) (h : NamesReachable names) :
    (∀ n ∈ names.filterMap parseSessionName, 1 ≤ n)
  ∧ (names.filterMap parseSessionName).Nodup := by
  induction h with
  | nil => exact ⟨by simp, by simp⟩
  | create names _ ih =>
    have hparse : List.filterMap parseSessionName [nextSessionName names]
        = [getNextSessionNumber names] := by
      show List.filterMap parseSessionName ["Session " ++ Nat.repr (getNextSessionNumber names)]
        = _
      rw [List.filterMap_cons, parseSessionName_repr]
      rfl
    obtain ⟨hN1, hN2, _⟩ := nextSessionNumber_least names ih.1 ih.2
    rw [List.filterMap_append, hparse]
    constructor
    · intro m hm
      rw [List.mem_append, List.mem_singleton] at hm
      rcases hm with hm | hm
      · exact ih.1 m hm
      · subst hm; exact hN1
    · rw [List.nodup_append]
      exact ⟨ih.2, List.nodup_singleton _,
        fun a ha hb => hN2 (by rwa [List.mem_singleton.mp hb] at ha)⟩
  | close l1 l2 x _ ih =>
    have hsub : List.Sublist (l1 ++ l2) (l1 ++ x :: l2) :=
      List.Sublist.append_left (List.sublist_cons_self x l2) l1
    have hsubf := hsub.filterMap parseSessionName
    exact ⟨fun m hm => ih.1 m (hsubf.subset hm), ih.2.sublist hsubf⟩

/-- C5. For every registry state reachable by any interleaving of
creates and completed closes, the next created session gets
`"Session N"` with `N` the smallest positive integer not used as the
numeric suffix of any live session's name; in particular with live names
`Session 1, Session 3` (sessions 1,2,3 created, 2 closed and removed),
the next creation is named `"Session 2"`, not `"Session 4"`. -/
theorem session_naming_spec (names : List String) (h : NamesReachable names) :
    (1 ≤ getNextSessionNumber names
      ∧ getNextSessionNumber names ∉ names.filterMap parseSessionName
      ∧ ∀ m, 1 ≤ m → m ∉ names.filterMap parseSessionName →
          getNextSessionNumber names ≤ m)
  ∧ nextSessionName ["Session 1", "Session 3"] = "Session 2"
  ∧ nextSessionName ["Session 1", "Session 3"] ≠ "Session 4" := by
  obtain ⟨h1, h2⟩ := namesReachable_inv names h
  exact ⟨nextSessionNumber_least names h1 h2, by decide, by decide⟩

/-- C5 witness: `["Session 1", "Session 3"]` is reachable (create 1, 2, 3
then close 2); there the allocator returns 2, which is positive and
unused. -/
theorem session_naming_spec_witness :
    getNextSessionNumber ["Session 1", "Session 3"] = 2
  ∧ getNextSessionNumber ["Session 1", "Session 3"]
      ∉ (["Session 1", "Session 3"] : List String).filterMap parseSessionName := by
  have h0 : NamesReachable [] := NamesReachable.nil
  have h1 : NamesReachable ["Session 1"] :=
    (by decide : ([] ++ [nextSessionName []] : List String) = ["Session 1"]) ▸
      NamesReachable.create [] h0
  have h2 : NamesReachable ["Session 1", "Session 2"] :=
    (by decide : (["Session 1"] ++ [nextSessionName ["Session 1"]] : List String)
        = ["Session 1", "Session 2"]) ▸ NamesReachable.create ["Session 1"] h1
  have h3 : NamesReachable ["Session 1", "Session 2", "Session 3"] :=
    (by decide : (["Session 1", "Session 2"]
          ++ [nextSessionName ["Session 1", "Session 2"]] : List String)
        = ["Session 1", "Session 2", "Session 3"]) ▸
      NamesReachable.create ["Session 1", "Session 2"] h2
  have hr : NamesReachable ["Session 1", "Session 3"] :=
    NamesReachable.close ["Session 1"] ["Session 3"] "Session 2" h3
  have h := session_naming_spec ["Session 1", "Session 3"] hr
  exact ⟨by decide, h.1.2.1⟩

/-! ## The connection/session event handlers (server.js lines 88–146, 170–231)

The server is single-threaded: every socket event and every
pseudo-terminal callback runs to completion before the next one. We embed
it as a deterministic step function on an explicit state. Client-bound
messages are collected as `(Tgt × Msg)` pairs (`Tgt.all` is `io.emit`,
`Tgt.conn c` is a direct or room-resolved `socket.emit`); calls into the
opaque pseudo-terminal capability are collected as `Eff` values. Keystroke
payloads are modelled as their UTF-8 byte sequences (`List Nat`), so
`Buffer.byteLength(data, 'utf8')` is their length. -/

/-- `HISTORY_LIMIT = 1024 * 512` (line 66). -/
def HISTORY_LIMIT : Nat := 1024 * 512

/-- One registry entry (lines 106–111): display name and scrollback
history. The pseudo-terminal handle is opaque; its identity is the
session id used in `Eff` values. -/
structure Session where
  name : String
  history : RingBuffer

/-- The server state: the `sessions` map (insertion-ordered, as a JS `Map`
is), each socket's non-self room (each socket is in at most one, because
`switch-session` leaves all rooms before joining), the connected socket
ids, and each socket's rate-limiter closure. -/
structure SrvState where
  sessions : List (String × Session)
  rooms : String → Option String
  conns : List String
  buckets : String → Bucket

/-- `sessions.get(id)` on the insertion-ordered entry list. -/
def findSession (sid : String) : List (String × Session) → Option Session
  | [] => none
  | (k, s) :: rest => if k = sid then some s else findSession sid rest

/-- `sessions.set(id, s)`: replace in place, or append as newest. -/
def setSession (sid : String) (s : Session) : List (String × Session) → List (String × Session)
  | [] => [(sid, s)]
  | (k, t) :: rest => if k = sid then (sid, s) :: rest else (k, t) :: setSession sid s rest

/-- `sessions.delete(id)`. -/
def removeSession (sid : String) : List (String × Session) → List (String × Session)
  | [] => []
  | (k, t) :: rest => if k = sid then removeSession sid rest else (k, t) :: removeSession sid rest

/-- Mutate the session object stored under `sid` (the `data` callback's
`session.history.append(d)`). -/
def updateSession (sid : String) (f : Session → Session) :
    List (String × Session) → List (String × Session)
  | [] => []
  | (k, t) :: rest => if k = sid then (k, f t) :: rest else (k, t) :: updateSession sid f rest

/-- `Array.from(sessions.values()).map(s => ({id, name}))` (line 173). -/
def listSessions (st : SrvState) : List (String × String) :=
  st.sessions.map (fun p => (p.1, p.2.name))

/-- Events arriving at the single-threaded event loop: the five client
socket events, the two pseudo-terminal callbacks, and a client connect.
`createSess` carries the fresh uuid and the spawn outcome (the opaque
`pty.spawn` either throws or succeeds); `input`/`connect` carry the
wall-clock time `Date.now()` observes. -/
inductive Ev where
  | connect (c : String) (now : ℤ)
  | switch (c sid : String)
  | createSess (c id : String) (spawnOk : Bool)
  | close (c sid : String)
  | input (c sid : String) (data : List Nat) (now : ℤ)
  | resize (c sid : String) (cols rows : ℤ)
  | ptyData (sid : String) (d : List Nat)
  | ptyExit (sid : String)
deriving DecidableEq

/-- Message targets: `io.emit` broadcasts, or a single socket (direct
emits, and room emits resolved against current membership). -/
inductive Tgt where
  | all
  | conn (c : String)
deriving DecidableEq

/-- Client-bound events. -/
inductive Msg where
  | sessionsList (l : List (String × String))
  | history (h : List Nat)
  | output (d : List Nat)
  | sessionCreated (id name : String)
  | sessionClosed (id name : String)
  | createdAck (id name : String)
deriving DecidableEq

/-- Calls into the opaque pseudo-terminal capability. -/
inductive Eff where
  | ptyWrite (sid : String) (d : List Nat)
  | ptyResize (sid : String) (cols rows : ℤ)
  | ptyKill (sid : String)
deriving DecidableEq

/-- `Number(x) || dflt` for an integer payload field: `0` (and anything
unparsable, which we model as `0`) falls back to the default. -/
def jsOr (x dflt : ℤ) : ℤ := if x = 0 then dflt else x

/-- `createSession` (lines 88–130) up to registration: `none` models the
spawn throwing (the `catch` returns `null` before any registration);
otherwise the new `Session` object with the gap-filled name and a fresh
history buffer. -/
def createSessionFn (sessions : List (String × Session)) (spawnOk : Bool) : Option Session :=
  if spawnOk then
    some { name := nextSessionName (sessions.map (fun p => p.2.name)),
           history := RingBuffer.mk0 HISTORY_LIMIT }
  else none

/-- One iteration of the event loop (lines 113–126 and 170–231). -/
def step (st : SrvState) : Ev → SrvState × List (Tgt × Msg) × List Eff
  | .connect c now =>
      ({ st with conns := st.conns ++ [c],
                 buckets := fun x => if x = c then createBucket 32768 16384 now else st.buckets x },
       [(Tgt.conn c, Msg.sessionsList (listSessions st))], [])
  | .switch c sid =>
      -- lines 178–190: leave every non-self room first, then look up
      let rooms1 : String → Option String := fun x => if x = c then none else st.rooms x
      match findSession sid st.sessions with
      | some s =>
          ({ st with rooms := fun x => if x = c then some sid else rooms1 x },
           if s.history.toSnapshot.isEmpty then []
           else [(Tgt.conn c, Msg.history s.history.toSnapshot)], [])
      | none => ({ st with rooms := rooms1 }, [], [])
  | .createSess c id ok =>
      -- lines 192–197 and 88–130
      match createSessionFn st.sessions ok with
      | some s =>
          ({ st with sessions := setSession id s st.sessions },
           [(Tgt.all, Msg.sessionCreated id s.name), (Tgt.conn c, Msg.createdAck id s.name)],
           [])
      | none => (st, [], [])
  | .close _ sid =>
      -- lines 199–205: only `session.pty.kill()`; no registry mutation
      match findSession sid st.sessions with
      | some _ => (st, [], [Eff.ptyKill sid])
      | none => (st, [], [])
  | .input c sid data now =>
      -- lines 207–217: existence check strictly before the bucket test
      match findSession sid st.sessions with
      | some _ =>
          let r := (st.buckets c).take (data.length : ℚ) now
          let st' := { st with buckets := fun x => if x = c then r.2 else st.buckets x }
          if r.1 then (st', [], [Eff.ptyWrite sid data]) else (st', [], [])
      | none => (st, [], [])
  | .resize _ sid cols rows =>
      -- lines 219–226
      match findSession sid st.sessions with
      | some _ =>
          let cols := jsOr cols 80
          let rows := jsOr rows 30
          if cols < 40 ∨ 1000 < cols ∨ rows < 10 ∨ 400 < rows then (st, [], [])
          else (st, [], [Eff.ptyResize sid cols rows])
      | none => (st, [], [])
  | .ptyData sid d =>
      -- lines 113–120: append to history, then emit to the session room
      match findSession sid st.sessions with
      | some _ =>
          ({ st with sessions :=
              updateSession sid (fun s => { s with history := s.history.append d }) st.sessions },
           (st.conns.filter (fun x => decide (st.rooms x = some sid))).map
             (fun x => (Tgt.conn x, Msg.output d)), [])
      | none => (st, [], [])
  | .ptyExit sid =>
      -- lines 122–126: deregister, then announce to everyone
      match findSession sid st.sessions with
      | some s =>
          ({ st with sessions := removeSession sid st.sessions },
           [(Tgt.all, Msg.sessionClosed sid s.name)], [])
      | none => (st, [], [])

/-- Run the event loop over a list of events, collecting all client-bound
messages in emission order. -/
def run (st : SrvState) : List Ev → SrvState × List (Tgt × Msg)
  | [] => (st, [])
  | e :: es =>
      let r := step st e
      let r2 := run r.1 es
      (r2.1, r.2.1 ++ r2.2)

/-- The messages connection `c` receives, in order: everything broadcast
plus everything addressed to it. -/
def messagesTo (c : String) : List (Tgt × Msg) → List Msg
  | [] => []
  | (Tgt.all, m) :: rest => m :: messagesTo c rest
  | (Tgt.conn x, m) :: rest =>
      if x = c then m :: messagesTo c rest else messagesTo c rest

/-! ### Concrete fixtures used by witnesses and counterexamples -/

/-- A live session named `Session 1` whose history holds one byte `65`. -/
def sess0 : Session :=
  { name := "Session 1", history := (RingBuffer.mk0 HISTORY_LIMIT).append [65] }

/-- A rate-limiter state with only 2 tokens left (reachable after prior
admissions). -/
def bucket0 : Bucket := ⟨32768, 16384, 2, 0⟩

/-- One registered session `"S"`, one connection `"c"` in no room. -/
def st0 : SrvState :=
  { sessions := [("S", sess0)], rooms := fun _ => none,
    conns := ["c"], buckets := fun _ => bucket0 }

/-- Like `st0` but with connection `"c"` subscribed to session `"S"`. -/
def st1 : SrvState :=
  { sessions := [("S", sess0)], rooms := fun x => if x = "c" then some "S" else none,
    conns := ["c"], buckets := fun _ => bucket0 }

example : sess0.history.toSnapshot = [65] := by decide
example : findSession "X" st1.sessions = none := rfl

/-! ### C2 — switching to a nonexistent session -/

/-- C2 (amended). A `switch-session` naming an unknown `sessionId` is not
a no-op: the handler leaves every non-self room *before* the existence
check, so the connection ends subscribed to nothing (its room is cleared,
not retained); no history event is delivered and nothing else changes. -/
theorem switch_missing_session_spec (st : SrvState) (c sid : String)
    (h : findSession sid st.sessions = none) :
    step st (Ev.switch c sid)
      = ({ st with rooms := fun x => if x = c then none else st.rooms x }, [], []) := by
  simp only [step, h]

/-- C2 counterexample to the claim as stated: connection `"c"` is
subscribed to live session `"S"`; switching to the unregistered id `"X"`
leaves it subscribed to nothing, not to `"S"` — its subscription state is
changed. -/
theorem switch_missing_session_cex :
    st1.rooms "c" = some "S"
  ∧ (step st1 (Ev.switch "c" "X")).1.rooms "c" = none
  ∧ (step st1 (Ev.switch "c" "X")).2.1 = [] :=
  ⟨by decide, by decide, by decide⟩

/-- C2 witness for the amended theorem, at the concrete state `st1`. -/
theorem switch_missing_session_witness :
    (step st1 (Ev.switch "c" "X")).1.rooms "c" = none := by
  have h := switch_missing_session_spec st1 "c" "X" rfl
  rw [h]
  decide

/-! ### C3 — resize bounds -/

/-- C3 (amended). For a resize on an existing session: the handler first
replaces a zero (JS-falsy) `cols`/`rows` by the defaults 80/30; then a
result outside cols ∈ [40,1000] or rows ∈ [10,400] is ignored entirely
(no effect, no message, no state change), and an in-bounds result is
forwarded to the pseudo-terminal's resize exactly; nonzero requested
values are forwarded unchanged. -/
theorem resize_bounds_spec (st : SrvState) (c sid : String) (cols rows : ℤ)
    (sess : Session) (h : findSession sid st.sessions = some sess) :
    ((jsOr cols 80 < 40 ∨ 1000 < jsOr cols 80 ∨ jsOr rows 30 < 10 ∨ 400 < jsOr rows 30) →
      step st (Ev.resize c sid cols rows) = (st, [], []))
  ∧ (¬(jsOr cols 80 < 40 ∨ 1000 < jsOr cols 80 ∨ jsOr rows 30 < 10 ∨ 400 < jsOr rows 30) →
      step st (Ev.resize c sid cols rows)
        = (st, [], [Eff.ptyResize sid (jsOr cols 80) (jsOr rows 30)]))
  ∧ (cols ≠ 0 → jsOr cols 80 = cols) ∧ (rows ≠ 0 → jsOr rows 30 = rows) := by
  refine ⟨?_, ?_, fun hc => by simp [jsOr, hc], fun hr => by simp [jsOr, hr]⟩
  · intro hob
    simp only [step, h]
    rw [if_pos hob]
  · intro hib
    simp only [step, h]
    rw [if_neg hib]

/-- C3 counterexample to the claim as stated: `cols = 0` is outside
`[40,1000]`, yet the request is not ignored — the handler forwards a
resize to 80×24 to the pseudo-terminal. -/
theorem resize_bounds_cex :
    (0 : ℤ) < 40
  ∧ (step st0 (Ev.resize "c" "S" 0 24)).2.2 = [Eff.ptyResize "S" 80 24] :=
  ⟨by decide, by decide⟩

/-- C3 witness: in-bounds 100×24 is forwarded exactly; out-of-bounds
20×24 is ignored. -/
theorem resize_bounds_witness :
    (step st0 (Ev.resize "c" "S" 100 24)).2.2 = [Eff.ptyResize "S" 100 24]
  ∧ (step st0 (Ev.resize "c" "S" 20 24)).2.2 = [] := by
  have h1 := (resize_bounds_spec st0 "c" "S" 100 24 sess0 rfl).2.1 (by decide)
  have h2 := (resize_bounds_spec st0 "c" "S" 20 24 sess0 rfl).1 (by decide)
  exact ⟨by rw [h1]; decide, by rw [h2]⟩

/-! ### C8 — spawn failure -/

/-- C8. When spawning the pseudo-terminal fails, `createSession` returns
a failure (`null`, modelled as `none`) before any registration: the
registry is exactly as before, nothing is announced, no ack is sent, and
the handler returns normally (it is a total function — no crash). -/
theorem create_session_spawn_failure (st : SrvState) (c id : String) :
    createSessionFn st.sessions false = none
  ∧ step st (Ev.createSess c id false) = (st, [], []) :=
  ⟨rfl, rfl⟩

/-! ### C10 — input to a nonexistent session leaves the limiter untouched -/

/-- C10. An `input` whose `sessionId` is not registered returns before the
rate-limiter is consulted (`if (!session || !session.pty) return;` precedes
`bucket.take`): the entire state — including every connection's bucket —
is unchanged, and nothing is written or emitted. -/
theorem input_missing_session_frame (st : SrvState) (c sid : String)
    (data : List Nat) (now : ℤ) (h : findSession sid st.sessions = none) :
    step st (Ev.input c sid data now) = (st, [], []) := by
  simp only [step, h]

/-- C10 witness at the concrete state `st0` and unknown session `"X"`. -/
theorem input_missing_session_frame_witness :
    step st0 (Ev.input "c" "X" [65] 0) = (st0, [], []) :=
  input_missing_session_frame st0 "c" "X" [65] 0 rfl

/-! ### C9 — rate-limited input -/

/-- C9. For an `input` naming an existing session: the connection's bucket
is consulted with the payload's byte length; on denial the data is
silently dropped — no pseudo-terminal write, no message back to any
client, sessions untouched (only the bucket's own refill state advances);
on admission the data is written verbatim to that session's
pseudo-terminal. The handler is a total function (the JS `try/catch`
around `pty.write` means no exception escapes). -/
theorem input_rate_limit_spec (st : SrvState) (c sid : String) (data : List Nat)
    (now : ℤ) (sess : Session) (h : findSession sid st.sessions = some sess) :
    (((st.buckets c).take (data.length : ℚ) now).1 = false →
      step st (Ev.input c sid data now)
        = ({ st with buckets := fun x =>
              if x = c then ((st.buckets c).take (data.length : ℚ) now).2 else st.buckets x },
           [], []))
  ∧ (((st.buckets c).take (data.length : ℚ) now).1 = true →
      step st (Ev.input c sid data now)
        = ({ st with buckets := fun x =>
              if x = c then ((st.buckets c).take (data.length : ℚ) now).2 else st.buckets x },
           [], [Eff.ptyWrite sid data])) := by
  constructor
  · intro hr
    simp only [step, h, hr]
    rfl
  · intro hr
    simp only [step, h, hr]
    rfl

/-- C9 witness at `st0` (whose bucket has 2 tokens left): a 3-byte input
is dropped without a write; a 1-byte input is admitted and written
verbatim. -/
theorem input_rate_limit_spec_witness :
    (step st0 (Ev.input "c" "S" [65, 66, 67] 0)).2.2 = []
  ∧ (step st0 (Ev.input "c" "S" [65] 0)).2.2 = [Eff.ptyWrite "S" [65]] := by
  have hdeny : ((st0.buckets "c").take (([65, 66, 67] : List Nat).length : ℚ) 0).1 = false := by
    norm_num [st0, bucket0, Bucket.take, Bucket.refillAt]
  have hgrant : ((st0.buckets "c").take (([65] : List Nat).length : ℚ) 0).1 = true := by
    norm_num [st0, bucket0, Bucket.take, Bucket.refillAt]
  have h1 := (input_rate_limit_spec st0 "c" "S" [65, 66, 67] 0 sess0 rfl).1 hdeny
  have h2 := (input_rate_limit_spec st0 "c" "S" [65] 0 sess0 rfl).2 hgrant
  exact ⟨by rw [h1], by rw [h2]⟩

/-! ### C7 — two-phase session removal -/

theorem findSession_set_isSome (sid id2 : String) (s : Session)
    (l : List (String × Session)) (h : (findSession sid l).isSome) :
    (findSession sid (setSession id2 s l)).isSome := by
  induction l with
  | nil => simp [findSession] at h
  | cons p rest ih =>
    obtain ⟨k, t⟩ := p
    show (findSession sid (if k = id2 then (id2, s) :: rest else (k, t) :: setSession id2 s rest)).isSome
    by_cases hk : k = id2
    · rw [if_pos hk]
      show (if id2 = sid then some s else findSession sid rest).isSome
      by_cases hs : id2 = sid
      · rw [if_pos hs]; rfl
      · rw [if_neg hs]
        have hks : ¬(k = sid) := fun he => hs (hk ▸ he)
        revert h
        show (if k = sid then some t else findSession sid rest).isSome → _
        rw [if_neg hks]
        exact id
    · rw [if_neg hk]
      show (if k = sid then some t else findSession sid (setSession id2 s rest)).isSome
      by_cases hs : k = sid
      · rw [if_pos hs]; rfl
      · rw [if_neg hs]
        apply ih
        revert h
        show (if k = sid then some t else findSession sid rest).isSome → _
        rw [if_neg hs]
        exact id

theorem findSession_update_isSome (sid sid2 : String) (f : Session → Session)
    (l : List (String × Session)) :
    (findSession sid (updateSession sid2 f l)).isSome = (findSession sid l).isSome := by
  induction l with
  | nil => rfl
  | cons p rest ih =>
    obtain ⟨k, t⟩ := p
    show (findSession sid (if k = sid2 then (k, f t) :: rest else (k, t) :: updateSession sid2 f rest)).isSome
      = (if k = sid then some t else findSession sid rest).isSome
    by_cases hk : k = sid2
    · rw [if_pos hk]
      show (if k = sid then some (f t) else findSession sid rest).isSome = _
      by_cases hs : k = sid
      · rw [if_pos hs, if_pos hs]; rfl
      · rw [if_neg hs, if_neg hs]
    · rw [if_neg hk]
      show (if k = sid then some t else findSession sid (updateSession sid2 f rest)).isSome = _
      by_cases hs : k = sid
      · rw [if_pos hs, if_pos hs]
      · rw [if_neg hs, if_neg hs]
        exact ih

theorem findSession_remove_ne (sid sid2 : String) (l : List (String × Session))
    (h : sid ≠ sid2) : findSession sid (removeSession sid2 l) = findSession sid l := by
  induction l with
  | nil => rfl
  | cons p rest ih =>
    obtain ⟨k, t⟩ := p
    show findSession sid (if k = sid2 then removeSession sid2 rest else (k, t) :: removeSession sid2 rest)
      = (if k = sid then some t else findSession sid rest)
    by_cases hk : k = sid2
    · rw [if_pos hk, ih, if_neg (fun he : k = sid => h (he ▸ hk))]
    · rw [if_neg hk]
      show (if k = sid then some t else findSession sid (removeSession sid2 rest)) = _
      by_cases hs : k = sid
      · rw [if_pos hs, if_pos hs]
      · rw [if_neg hs, if_neg hs]
        exact ih

/-- C7. Closing a live session is two-phase. (i) The `close-session`
handler only requests termination (`pty.kill()`): the state — hence
`listSessions()` and subscribability — is unchanged, and no
`session-closed` is announced. (ii) No event other than that session's
exit callback ever removes it from the registry. (iii) Only when the
exit callback fires is the session deregistered and `session-closed`
announced to all connections. -/
theorem close_session_two_phase (st : SrvState) (c sid : String) (sess : Session)
    (h : findSession sid st.sessions = some sess) :
    step st (Ev.close c sid) = (st, [], [Eff.ptyKill sid])
  ∧ (∀ (st' : SrvState) (ev : Ev), (findSession sid st'.sessions).isSome →
      ev ≠ Ev.ptyExit sid → (findSession sid (step st' ev).1.sessions).isSome)
  ∧ step st (Ev.ptyExit sid)
      = ({ st with sessions := removeSession sid st.sessions },
         [(Tgt.all, Msg.sessionClosed sid sess.name)], []) := by
  refine ⟨by simp only [step, h], ?_, by simp only [step, h]⟩
  intro st' ev hsome hne
  cases ev with
  | connect c2 now => exact hsome
  | switch c2 sid2 =>
      rcases hfind : findSession sid2 st'.sessions with _ | s2 <;>
        simp only [step, hfind] <;> exact hsome
  | createSess c2 id2 ok =>
      rcases hcr : createSessionFn st'.sessions ok with _ | s2
      · simpa only [step, hcr] using hsome
      · simp only [step, hcr]
        exact findSession_set_isSome sid id2 s2 st'.sessions hsome
  | close c2 sid2 =>
      rcases hfind : findSession sid2 st'.sessions with _ | s2 <;>
        simp only [step, hfind] <;> exact hsome
  | input c2 sid2 data now =>
      rcases hfind : findSession sid2 st'.sessions with _ | s2
      · simpa only [step, hfind] using hsome
      · simp only [step, hfind]
        split <;> exact hsome
  | resize c2 sid2 cols rows =>
      rcases hfind : findSession sid2 st'.sessions with _ | s2
      · simpa only [step, hfind] using hsome
      · simp only [step, hfind]
        split <;> exact hsome
  | ptyData sid2 d =>
      rcases hfind : findSession sid2 st'.sessions with _ | s2
      · simpa only [step, hfind] using hsome
      · simp only [step, hfind]
        rw [findSession_update_isSome]
        exact hsome
  | ptyExit sid2 =>
      have hne2 : sid ≠ sid2 := fun he => hne (by rw [he])
      rcases hfind : findSession sid2 st'.sessions with _ | s2
      · simpa only [step, hfind] using hsome
      · simp only [step, hfind]
        rw [findSession_remove_ne sid sid2 _ hne2]
        exact hsome

/-- C7 witness at `st0`: closing `"S"` only emits a kill request and
leaves the state intact; an unrelated event keeps `"S"` registered; the
exit callback removes it and announces `session-closed`. -/
theorem close_session_two_phase_witness :
    step st0 (Ev.close "c" "S") = (st0, [], [Eff.ptyKill "S"])
  ∧ (findSession "S" (step st0 (Ev.input "c" "S" [65] 0)).1.sessions).isSome
  ∧ step st0 (Ev.ptyExit "S")
      = ({ st0 with sessions := removeSession "S" st0.sessions },
         [(Tgt.all, Msg.sessionClosed "S" "Session 1")], []) := by
  have h := close_session_two_phase st0 "c" "S" sess0 rfl
  exact ⟨h.1, h.2.1 st0 (Ev.input "c" "S" [65] 0) (by decide) (by decide), h.2.2.trans rfl⟩

/-! ### C6 — history snapshot strictly precedes later live output -/

theorem run_append (st : SrvState) (l1 l2 : List Ev) :
    run st (l1 ++ l2)
      = ((run (run st l1).1 l2).1, (run st l1).2 ++ (run (run st l1).1 l2).2) := by
  induction l1 generalizing st with
  | nil => simp [run]
  | cons e es ih =>
    simp only [List.cons_append, run, List.append_eq]
    rw [ih]
    simp [List.append_assoc]

theorem messagesTo_append (c : String) (m1 m2 : List (Tgt × Msg)) :
    messagesTo c (m1 ++ m2) = messagesTo c m1 ++ messagesTo c m2 := by
  induction m1 with
  | nil => rfl
  | cons tm rest ih =>
    obtain ⟨t, m⟩ := tm
    cases t with
    | all => simp only [List.cons_append, messagesTo, List.append_eq, ih]
    | conn x =>
      simp only [List.cons_append, messagesTo, List.append_eq, ih]
      split <;> rfl

theorem messagesTo_outputs (c : String) (m : Msg) (l : List String) :
    messagesTo c (l.map (fun x => (Tgt.conn x, m))) = List.replicate (l.count c) m := by
  induction l with
  | nil => rfl
  | cons x xs ih =>
    rw [List.map_cons]
    by_cases hx : x = c
    · subst hx
      rw [List.count_cons_self]
      simp only [messagesTo, if_pos rfl, if_true, ih, List.replicate_succ]
    · rw [List.count_cons_of_ne (fun he => hx he.symm)]
      simp only [messagesTo, if_neg hx, ih]

theorem count_filter_of_pos (c : String) (p : String → Bool) (l : List String)
    (h : p c = true) : (l.filter p).count c = l.count c := by
  induction l with
  | nil => rfl
  | cons x xs ih =>
    by_cases hx : x = c
    · subst hx
      rw [List.filter_cons_of_pos h, List.count_cons_self, List.count_cons_self, ih]
    · by_cases hp : p x = true
      · rw [List.filter_cons_of_pos hp, List.count_cons_of_ne (fun he => hx he.symm),
          List.count_cons_of_ne (fun he => hx he.symm), ih]
      · rw [List.filter_cons_of_neg (by simpa using hp),
          List.count_cons_of_ne (fun he => hx he.symm), ih]

/-- C6. Single-session ordering. From any state in which session `s` is
live with nonempty history: when connection `c` switches to `s`, then any
events `mid` occur that leave `c` subscribed to `s` (and `s` live, `c`
connected once), and then a live chunk `b` arrives from `s`'s
pseudo-terminal, the stream of messages `c` receives over this window is
exactly the full history snapshot as a single event, then whatever `mid`
delivered, then `output b` — the snapshot strictly precedes every live
chunk published after the switch, with no interleaving; chunks are
appended to history and published in arrival order because each event is
processed to completion in sequence. -/
theorem subscribe_then_publish_order (st : SrvState) (c s : String) (sess : Session)
    (mid : List Ev) (b : List Nat)
    (hs : findSession s st.sessions = some sess)
    (hh : sess.history.toSnapshot.isEmpty = false)
    (hroom : ((run (step st (Ev.switch c s)).1 mid).1).rooms c = some s)
    (hlive : (findSession s ((run (step st (Ev.switch c s)).1 mid).1).sessions).isSome)
    (hconn : ((run (step st (Ev.switch c s)).1 mid).1).conns.count c = 1) :
    messagesTo c (run st (Ev.switch c s :: (mid ++ [Ev.ptyData s b]))).2
      = Msg.history sess.history.toSnapshot
          :: messagesTo c (run (step st (Ev.switch c s)).1 mid).2
          ++ [Msg.output b] := by
  have hstep1 : (run st (Ev.switch c s :: (mid ++ [Ev.ptyData s b]))).2
      = (step st (Ev.switch c s)).2.1
          ++ (run (step st (Ev.switch c s)).1 (mid ++ [Ev.ptyData s b])).2 := rfl
  rw [hstep1, run_append, messagesTo_append, messagesTo_append]
  -- the switch step emits exactly the history snapshot to c
  have hswitch : (step st (Ev.switch c s)).2.1
      = [(Tgt.conn c, Msg.history sess.history.toSnapshot)] := by
    simp only [step, hs, hh]
    rfl
  rw [hswitch]
  have hmsg1 : messagesTo c [(Tgt.conn c, Msg.history sess.history.toSnapshot)]
      = [Msg.history sess.history.toSnapshot] := by
    simp only [messagesTo, if_pos rfl, if_true]
  rw [hmsg1]
  -- the data step emits exactly one output to c
  set st2 := (run (step st (Ev.switch c s)).1 mid).1 with hst2
  obtain ⟨sess2, hs2⟩ := Option.isSome_iff_exists.mp hlive
  have hdata : (run st2 [Ev.ptyData s b]).2 = (step st2 (Ev.ptyData s b)).2.1 ++ [] := rfl
  rw [hdata, List.append_nil]
  have hemit : (step st2 (Ev.ptyData s b)).2.1
      = (st2.conns.filter (fun x => decide (st2.rooms x = some s))).map
          (fun x => (Tgt.conn x, Msg.output b)) := by
    simp only [step, hs2]
  rw [hemit, messagesTo_outputs,
    count_filter_of_pos c _ _ (by rw [hroom]; simp), hconn]
  rfl

/-- C6 witness: in `st0`, connection `"c"` switches to `"S"` (history
`[65]`), no intervening events, then chunk `[66]` arrives: `"c"` receives
the history snapshot first, then the output. -/
theorem subscribe_then_publish_order_witness :
    messagesTo "c" (run st0 (Ev.switch "c" "S" :: ([] ++ [Ev.ptyData "S" [66]]))).2
      = [Msg.history [65], Msg.output [66]] := by
  have h := subscribe_then_publish_order st0 "c" "S" sess0 [] [66]
    rfl (by decide) (by decide) (by decide) (by decide)
  rw [h]
  decide
